import Mathlib

/-!
# A shallow embedding of the tinylisp interpreter kernel

This file embeds the interpreter in `src/tinylisp.c` (8dcc/tinylisp) and
proves properties of the embedding.

Modelling decisions, stated once here:

* A Lisp value (`L`, a C `double` holding a NaN-boxed word) is modelled by
  its 64-bit bit pattern, a `Nat` reduced modulo `2 ^ 64` where the C code
  reinterprets the bits (`T`, `ord`, `box`, `equ`).  Numbers are the bit
  patterns of IEEE-754 doubles; the embedding never interprets them
  numerically.
* The four arithmetic primitives and the comparisons of `f_int` / `f_lt`
  perform IEEE-754 double arithmetic.  That arithmetic is kept abstract: the
  interpreter is parametrised by a structure `Fp` of bit-level functions
  about which nothing is assumed.  Every theorem below either holds for all
  interpretations of `Fp` or evaluates a program that performs no
  arithmetic.
* The interpreter state is the mutable globals of the C file: the `cell`
  array (modelled as a function from indices to bit patterns, since only
  the stack region is ever read through `cell[]`), the stack pointer `sp`,
  the atom heap (modelled as the list of interned strings, in heap order;
  the C code stores the same strings contiguously at the bottom of `cell[]`
  and addresses them by byte offset, which is recovered here by summing
  lengths), and the global environment `env`.  The globals `nil`, `err` and
  `tru` are set once by `main` before any evaluation and never change, so
  they are modelled as the constants their initialisation produces; the
  startup model `startup` below performs the same initialisation and the
  theorems check it yields exactly these constants.
* `abort()` on out-of-memory, and the stack-pointer underflow that the
  `uint32_t` subtraction in `cons` would cause when `sp < 2` (unreachable
  in real executions because the out-of-memory check fires first), are
  modelled as `none`.  All state-changing operations hence return
  `Option (State × L)`.
* The mutually recursive evaluator (`eval`, `apply`, `reduce`, `bind`,
  `evlis` and the primitive bodies, including the loops of `or` / `and` /
  `cond` / `let*`) is written as one function `interp` structurally
  recursive on a fuel argument, dispatching on a `Call` tag; one `Call`
  constructor (or one `prm` index) corresponds to one C function.  Fuel
  exhaustion returns `none`; the fuel is an artefact of totalisation and
  every theorem quantifies over it or fixes a sufficient amount.
* Where a C expression reads cells of an argument (through `car` / `cdr`,
  which are pure reads) and the surrounding statement also performs
  allocating sub-evaluations, C leaves the evaluation order of the operands
  unspecified.  The embedding reads the argument's cells in the state in
  which the enclosing function was entered (allocation only writes below
  `sp`, so for the well-formed inputs arising in real executions the order
  is immaterial); the one visible choice, the read of the global `env` in
  `reduce`, is performed after the argument list has been evaluated.
-/

namespace TL

/-- A Lisp value: the 64-bit bit pattern of the NaN-boxed `double`. -/
abbrev L := Nat

/-- NaN-boxing tag for atoms (`static I ATOM = 0x7ff8`). -/
def ATOM : Nat := 0x7ff8
/-- NaN-boxing tag for primitives (`PRIM = 0x7ff9`). -/
def PRIM : Nat := 0x7ff9
/-- NaN-boxing tag for cons pairs (`CONS = 0x7ffa`). -/
def CONS : Nat := 0x7ffa
/-- NaN-boxing tag for closures (`CLOS = 0x7ffb`). -/
def CLOS : Nat := 0x7ffb
/-- NaN-boxing tag for nil (`NIL = 0x7ffc`). -/
def NIL : Nat := 0x7ffc

/-- The tag bits of a value: `#define T(x) *(uint64_t*)&x >> 48`. -/
def tag (x : L) : Nat := x % 2 ^ 64 / 2 ^ 48

/-- `ord`: the low 32 bits of the boxed word (the C function casts the
64-bit pattern to the 32-bit unsigned type `I`). -/
def ord (x : L) : Nat := x % 2 ^ 32

/-- `box(t, i) = (uint64_t)t << 48 | i`.  Since `i < 2 ^ 32` after the
`uint32_t` reduction and the shifted tag has zero low bits, the bitwise or
is addition. -/
def box (t i : Nat) : L := t % 2 ^ 16 * 2 ^ 48 + i % 2 ^ 32

/-- The constant `nil` initialised by `main` (`nil = box(NIL, 0)`). -/
def nil : L := box NIL 0

/-- The constant `err`: `main` runs `err = atom("ERR")` on the empty heap,
interning "ERR" at heap offset 0, so `err = box(ATOM, 0)`.  Theorem
`err_is_first_atom` below re-derives this from the `atom` model. -/
def err : L := box ATOM 0

/-- The constant `tru`: `main` runs `tru = atom("t")` right after interning
"ERR" (4 bytes including the terminator), so `tru = box(ATOM, 4)`. -/
def tru : L := box ATOM 4

/-- `#define N 1024`: number of cells in the shared arena. -/
def N : Nat := 1024

/-- The mutable globals of the interpreter: the cell array (stack region),
the stack pointer `sp`, the atom heap (list of interned names, low offsets
first; the byte offset of a name is the summed lengths-plus-terminators of
the names before it), and the global environment `env`. -/
structure State where
  cell : Nat → L
  sp : Nat
  heap : List String
  env : L

/-- The heap pointer `hp`: total bytes occupied by the interned names
(each name takes `length + 1` bytes for the NUL terminator). -/
def heapBytes : List String → Nat
  | [] => 0
  | h :: t => h.length + 1 + heapBytes t

/-- The search loop of `atom`: scan the interned names in heap order for
`nm`, returning its byte offset if present. -/
def lookupAtom : List String → String → Option Nat
  | [], _ => none
  | h :: t, nm =>
    if h = nm then some 0
    else (lookupAtom t nm).map (fun i => h.length + 1 + i)

/-- `atom(s)`: intern a name.  If the name is already on the heap, return
the boxed atom for its existing offset; otherwise append it (abort — here
`none` — when the grown heap would overlap the stack region:
`hp > sp << 3`). -/
def atom (s : State) (nm : String) : Option (State × L) :=
  match lookupAtom s.heap nm with
  | some i => some (s, box ATOM i)
  | none =>
    if heapBytes s.heap + (nm.length + 1) > s.sp * 8 then none
    else some ({ s with heap := s.heap ++ [nm] }, box ATOM (heapBytes s.heap))

/-- `cons(x, y)`: push the car value `x`, then the cdr value `y`
(`cell[--sp] = x; cell[--sp] = y`), abort — here `none` — when
`hp > sp << 3`, and return `box(CONS, sp)`.  A start `sp < 2` would
underflow the `uint32_t` stack pointer in C (unreachable, see header) and
is also mapped to `none`. -/
def cons (s : State) (x y : L) : Option (State × L) :=
  if s.sp < 2 then none
  else if heapBytes s.heap > (s.sp - 2) * 8 then none
  else
    some ({ s with
              cell := fun i =>
                if i = s.sp - 1 then x else if i = s.sp - 2 then y else s.cell i,
              sp := s.sp - 2 },
          box CONS (s.sp - 2))

/-- `car(p)`: `cell[ord(p) + 1]` when `(T(p) & ~(CONS ^ CLOS)) == CONS`
(the mask `~(CONS ^ CLOS)` is the `uint32_t` complement of 1), else the
error value. -/
def car (s : State) (p : L) : L :=
  if Nat.land (tag p) 0xfffffffe = CONS then s.cell (ord p + 1) else err

/-- `cdr(p)`: `cell[ord(p)]` under the same tag check as `car`. -/
def cdr (s : State) (p : L) : L :=
  if Nat.land (tag p) 0xfffffffe = CONS then s.cell (ord p) else err

/-- `pair(v, x, e) = cons(cons(v, x), e)`. -/
def pair (s : State) (v x e : L) : Option (State × L) :=
  (cons s v x).bind fun p => cons p.1 p.2 e

/-- `closure(v, x, e) = box(CLOS, ord(pair(v, x, equ(e, env) ? nil : e)))`:
the captured environment collapses to `nil` exactly when `e` is
bit-identical to the current global environment. -/
def closure (s : State) (v x e : L) : Option (State × L) :=
  (pair s v x (if e = s.env then nil else e)).map fun p => (p.1, box CLOS (ord p.2))

/-- `not(x)`: nonzero iff `T(x) == NIL`. -/
def not (x : L) : Bool := tag x = NIL

/-- `let(x)`: nonzero iff `x` is a let* binding pair still to process
(`T(x) != NIL && !not(cdr(x))`). -/
def letp (s : State) (x : L) : Bool := tag x ≠ NIL && !(not (cdr s x))

/-- `assoc(v, e)`: walk the environment chain while `T(e) == CONS` and the
binding name differs from `v`; on a match return the bound value, on chain
exhaustion return the error value.  The loop is totalised by fuel. -/
def assoc : Nat → State → L → L → Option L
  | 0, _, _, _ => none
  | fuel + 1, s, v, e =>
    if tag e = CONS ∧ v ≠ car s (car s e) then assoc fuel s v (cdr s e)
    else if tag e = CONS then some (cdr s (car s e))
    else some err

/-- The shared loop of `f_add` / `f_sub` / `f_mul` / `f_div`
(`while (!not(t = cdr(t))) n op= car(t); return num(n);`), abstracted over
the arithmetic operation `op` on double bit patterns.  The loop performs no
allocation, so it takes the state read-only; it is totalised by fuel. -/
def arithLoop (op : Nat → Nat → Nat) : Nat → State → Nat → L → Option L
  | 0, _, _, _ => none
  | fuel + 1, s, n, t =>
    let t1 := cdr s t
    if not t1 then some n
    else arithLoop op fuel s (op n (car s t1)) t1

/-- The abstract IEEE-754 double operations used by the primitives, as
functions on 64-bit bit patterns.  Nothing is assumed about them. -/
structure Fp where
  add : Nat → Nat → Nat
  sub : Nat → Nat → Nat
  mul : Nat → Nat → Nat
  div : Nat → Nat → Nat
  /-- `x < 0` on a double bit pattern (used by `f_lt` after the subtraction). -/
  ltz : Nat → Bool
  /-- the numeric body of `f_int`:
  `n < 1e16 && n > -1e16 ? (L)(int64_t)n : n`. -/
  intf : Nat → Nat

/-- One call frame of the mutually recursive evaluator; each constructor
(and each index of `prm`, in the order of the `prim[]` table of
`tinylisp.c`) corresponds to one C function. -/
inductive Call where
  /-- `eval(x, e)` -/
  | ev (x e : L)
  /-- `apply(f, t, e)` -/
  | ap (f t e : L)
  /-- `reduce(f, t, e)` -/
  | red (f t e : L)
  /-- `bind(v, t, e)` -/
  | bnd (v t e : L)
  /-- `evlis(t, e)` -/
  | evl (t e : L)
  /-- the body of primitive number `i` applied to `(t, e)` -/
  | prm (i : Nat) (t e : L)
  /-- the loop of `f_or` -/
  | orL (t e : L)
  /-- the loop of `f_and`; `x` is the last value computed -/
  | andL (x t e : L)
  /-- the loop of `f_cond` -/
  | condL (t e : L)
  /-- the loop of `f_leta` -/
  | letaL (t e : L)

/-- The evaluator.  `interp fp fuel c s` runs call `c` in state `s`;
`none` is fuel exhaustion or `abort()`.  The `prm` indices follow the
`prim[]` table of `tinylisp.c`: eval, quote, cons, car, cdr, `+`, `-`,
`*`, `/`, int, `<`, equ, or, and, not, cond, if, let*, lambda, define; an
index past the table (only constructible by forging a `PRIM` value, which
no real execution does) would read past `prim[]` in C and is `none`. -/
def interp (fp : Fp) : Nat → Call → State → Option (State × L)
  | 0, _, _ => none
  | fuel + 1, c, s =>
    match c with
    | .ev x e =>
      if tag x = ATOM then (assoc fuel s x e).map fun r => (s, r)
      else if tag x = CONS then
        (interp fp fuel (.ev (car s x) e) s).bind fun p =>
          interp fp fuel (.ap p.2 (cdr s x) e) p.1
      else some (s, x)
    | .ap f t e =>
      if tag f = PRIM then interp fp fuel (.prm (ord f) t e) s
      else if tag f = CLOS then interp fp fuel (.red f t e) s
      else some (s, err)
    | .red f t e =>
      (interp fp fuel (.evl t e) s).bind fun q =>
        (interp fp fuel
            (.bnd (car s (car s f)) q.2
              (if not (cdr s f) then q.1.env else cdr s f)) q.1).bind fun r =>
          interp fp fuel (.ev (cdr s (car s f)) r.2) r.1
    | .bnd v t e =>
      if tag v = NIL then some (s, e)
      else if tag v = CONS then
        (pair s (car s v) (car s t) e).bind fun p =>
          interp fp fuel (.bnd (cdr s v) (cdr s t) p.2) p.1
      else pair s v t e
    | .evl t e =>
      if tag t = CONS then
        (interp fp fuel (.ev (car s t) e) s).bind fun p =>
          (interp fp fuel (.evl (cdr s t) e) p.1).bind fun q =>
            cons q.1 p.2 q.2
      else if tag t = ATOM then (assoc fuel s t e).map fun r => (s, r)
      else some (s, nil)
    | .prm i t e =>
      match i with
      | 0 => (interp fp fuel (.evl t e) s).bind fun q =>
          interp fp fuel (.ev (car q.1 q.2) e) q.1
      | 1 => some (s, car s t)
      | 2 => (interp fp fuel (.evl t e) s).bind fun q =>
          cons q.1 (car q.1 q.2) (car q.1 (cdr q.1 q.2))
      | 3 => (interp fp fuel (.evl t e) s).map fun q =>
          (q.1, car q.1 (car q.1 q.2))
      | 4 => (interp fp fuel (.evl t e) s).map fun q =>
          (q.1, cdr q.1 (car q.1 q.2))
      | 5 => (interp fp fuel (.evl t e) s).bind fun q =>
          (arithLoop fp.add fuel q.1 (car q.1 q.2) q.2).map fun n => (q.1, n)
      | 6 => (interp fp fuel (.evl t e) s).bind fun q =>
          (arithLoop fp.sub fuel q.1 (car q.1 q.2) q.2).map fun n => (q.1, n)
      | 7 => (interp fp fuel (.evl t e) s).bind fun q =>
          (arithLoop fp.mul fuel q.1 (car q.1 q.2) q.2).map fun n => (q.1, n)
      | 8 => (interp fp fuel (.evl t e) s).bind fun q =>
          (arithLoop fp.div fuel q.1 (car q.1 q.2) q.2).map fun n => (q.1, n)
      | 9 => (interp fp fuel (.evl t e) s).map fun q =>
          (q.1, fp.intf (car q.1 q.2))
      | 10 => (interp fp fuel (.evl t e) s).map fun q =>
          (q.1, if fp.ltz (fp.sub (car q.1 q.2) (car q.1 (cdr q.1 q.2))) then tru else nil)
      | 11 => (interp fp fuel (.evl t e) s).map fun q =>
          (q.1, if car q.1 q.2 = car q.1 (cdr q.1 q.2) then tru else nil)
      | 12 => interp fp fuel (.orL t e) s
      | 13 => interp fp fuel (.andL nil t e) s
      | 14 => (interp fp fuel (.evl t e) s).map fun q =>
          (q.1, if not (car q.1 q.2) then tru else nil)
      | 15 => interp fp fuel (.condL t e) s
      | 16 => (interp fp fuel (.ev (car s t) e) s).bind fun p =>
          interp fp fuel
            (.ev (car p.1 (cdr p.1 (if not p.2 then cdr p.1 t else t))) e) p.1
      | 17 => interp fp fuel (.letaL t e) s
      | 18 => closure s (car s t) (car s (cdr s t)) e
      | 19 => (interp fp fuel (.ev (car s (cdr s t)) e) s).bind fun q =>
          (pair q.1 (car q.1 t) q.2 q.1.env).map fun p =>
            ({ p.1 with env := p.2 }, car q.1 t)
      | _ => none
    | .orL t e =>
      if tag t = NIL then some (s, nil)
      else (interp fp fuel (.ev (car s t) e) s).bind fun p =>
        if not p.2 then interp fp fuel (.orL (cdr s t) e) p.1
        else some p
    | .andL x t e =>
      if tag t = NIL then some (s, x)
      else (interp fp fuel (.ev (car s t) e) s).bind fun p =>
        if not p.2 then some p
        else interp fp fuel (.andL p.2 (cdr s t) e) p.1
    | .condL t e =>
      if tag t = NIL then interp fp fuel (.ev (car s (cdr s (car s t))) e) s
      else (interp fp fuel (.ev (car s (car s t)) e) s).bind fun p =>
        if not p.2 then interp fp fuel (.condL (cdr s t) e) p.1
        else interp fp fuel (.ev (car p.1 (cdr p.1 (car p.1 t))) e) p.1
    | .letaL t e =>
      if letp s t then
        (interp fp fuel (.ev (car s (cdr s (car s t))) e) s).bind fun p =>
          (pair p.1 (car p.1 (car p.1 t)) p.2 e).bind fun q =>
            interp fp fuel (.letaL (cdr q.1 t) q.2) q.1
      else interp fp fuel (.ev (car s t) e) s

/-- `eval(x, e)` in state `s`. -/
def eval (fp : Fp) (fuel : Nat) (s : State) (x e : L) : Option (State × L) :=
  interp fp fuel (.ev x e) s

/-- `apply(f, t, e)` in state `s`. -/
def apply (fp : Fp) (fuel : Nat) (s : State) (f t e : L) : Option (State × L) :=
  interp fp fuel (.ap f t e) s

/-- `reduce(f, t, e)` in state `s`. -/
def reduce (fp : Fp) (fuel : Nat) (s : State) (f t e : L) : Option (State × L) :=
  interp fp fuel (.red f t e) s

/-- `bind(v, t, e)` in state `s`. -/
def bind (fp : Fp) (fuel : Nat) (s : State) (v t e : L) : Option (State × L) :=
  interp fp fuel (.bnd v t e) s

/-- `evlis(t, e)` in state `s`. -/
def evlis (fp : Fp) (fuel : Nat) (s : State) (t e : L) : Option (State × L) :=
  interp fp fuel (.evl t e) s

/-- `gc()`: rewind the stack pointer to the offset recorded inside the
current global environment value (`sp = ord(env)`). -/
def gc (s : State) : State := { s with sp := ord s.env }

/-- A surface expression as produced by the (excluded) parser: a number
literal (carrying the bit pattern `sscanf` produced), a symbol, or list
structure.  `'x` reaches the evaluator as `(quote x)`. -/
inductive Sexp where
  | num (bits : Nat)
  | sym (nm : String)
  | snil
  | scons (a d : Sexp)

/-- Build a proper list `Sexp`. -/
def sList : List Sexp → Sexp
  | [] => .snil
  | a :: t => .scons a (sList t)

/-- The parser's footprint on the interpreter state: `atomic()` returns
number bits or interns an atom; `list()` parses the head expression, then
the tail list, then allocates `cons(head, tail)` — in that order. -/
def inject (s : State) : Sexp → Option (State × L)
  | .num b => some (s, b)
  | .sym nm => atom s nm
  | .snil => some (s, nil)
  | .scons a d =>
    (inject s a).bind fun p =>
      (inject p.1 d).bind fun q => cons q.1 p.2 q.2

/-- The names of the `prim[]` table of `tinylisp.c`, in order. -/
def primNames : List String :=
  ["eval", "quote", "cons", "car", "cdr", "+", "-", "*", "/", "int",
   "<", "equ", "or", "and", "not", "cond", "if", "let*", "lambda", "define"]

/-- The state at program start: zeroed cell array (C static initialisation;
the bit pattern of 0.0 is 0), `sp = N`, empty heap, and `env` still holding
the zero bit pattern of the uninitialised global. -/
def startup0 : State := ⟨fun _ => 0, N, [], 0⟩

/-- The startup loop of `main`:
`for (i = 0; prim[i].s; ++i) env = pair(atom(prim[i].s), box(PRIM, i), env)`. -/
def startupPrims : Nat → State → List String → Option State
  | _, s, [] => some s
  | i, s, nm :: rest =>
    (atom s nm).bind fun p =>
      (pair p.1 p.2 (box PRIM i) p.1.env).bind fun q =>
        startupPrims (i + 1) { q.1 with env := q.2 } rest

/-- The initialisation performed by `main` before the REPL loop:
`nil = box(NIL, 0); err = atom("ERR"); tru = atom("t");
env = pair(tru, tru, nil);` then the primitive loop. -/
def startup : Option State :=
  (atom startup0 "ERR").bind fun pe =>
    (atom pe.1 "t").bind fun pt =>
      (pair pt.1 pt.2 pt.2 nil).bind fun q =>
        startupPrims 0 { q.1 with env := q.2 } primNames

/-- One REPL iteration up to the printer: `eval(read(), env)`.  `read()`
allocates the form, then `eval` runs it in the global environment. -/
def topStep (fp : Fp) (fuel : Nat) (s : State) (f : Sexp) : Option (State × L) :=
  (inject s f).bind fun p => interp fp fuel (.ev p.2 p.1.env) p.1

/-- One full REPL iteration: `eval(read(), env)` followed by `gc()` (the
printer, which consumes the value in between, is pure). -/
def stepForm (fp : Fp) (fuel : Nat) (s : State) (f : Sexp) : Option State :=
  (topStep fp fuel s f).map fun p => gc p.1

/-- A concrete instantiation of the abstract double arithmetic, used only
to instantiate theorems at closed inputs (the runs evaluated there perform
no arithmetic, so any instantiation gives the same result). -/
def fp0 : Fp := ⟨fun _ _ => 0, fun _ _ => 0, fun _ _ => 0, fun _ _ => 0,
  fun _ => false, fun n => n⟩

/-- IEEE-754 bit pattern of the double 0.0. -/
def d0 : Nat := 0
/-- IEEE-754 bit pattern of the double 1.0. -/
def d1 : Nat := 0x3ff0000000000000
/-- IEEE-754 bit pattern of the double 2.0. -/
def d2 : Nat := 0x4000000000000000
/-- IEEE-754 bit pattern of the double 3.0. -/
def d3 : Nat := 0x4008000000000000
/-- IEEE-754 bit pattern of the double 5.0. -/
def d5 : Nat := 0x4014000000000000

/-- Read `k` successive cars of a cdr-chain, for stating what list
structure a value has in a state. -/
def toListN (s : State) : Nat → L → List Nat
  | 0, _ => []
  | k + 1, x => car s x :: toListN s k (cdr s x)

/-- Allocation-only state evolution: the stack pointer does not increase,
cells at or above the old stack pointer are untouched, and the heap is
only appended to.  Every operation of the evaluator evolves the state this
way; this is the load-bearing fact behind the reclamation step. -/
structure Frame (s t : State) : Prop where
  sp_le : t.sp ≤ s.sp
  cells : ∀ i, s.sp ≤ i → t.cell i = s.cell i
  heapx : ∃ h2, t.heap = s.heap ++ h2

/-- A value is a proper (nil-terminated) list in a state: its cdr-chain,
as `cdr` reads it, reaches a `NIL`-tagged value after finitely many
`CONS`-tagged nodes. -/
inductive ProperList (s : State) : L → Prop
  | pnil (t : L) : tag t = NIL → ProperList s t
  | pcons (t : L) : tag t = CONS → ProperList s (cdr s t) → ProperList s t

/-- Fueled check that the environment chain `e` contains no binding whose
name is `v` (mirrors the walk of `assoc`; `false` on fuel exhaustion). -/
def noBindChk : Nat → State → L → L → Bool
  | 0, _, _, _ => false
  | fuel + 1, s, v, e =>
    if tag e = CONS then
      if v = car s (car s e) then false else noBindChk fuel s v (cdr s e)
    else true

/-- A run of top-level forms, each of which succeeds and leaves the global
environment value unchanged (that is, executes no `define`): the driver's
read/eval/gc cycle iterated over `fs`. -/
inductive EnvRun (fp : Fp) : State → List Sexp → State → Prop
  | done (s : State) : EnvRun fp s [] s
  | step (s s2 s3 : State) (f : Sexp) (fs : List Sexp) (n : Nat) :
      stepForm fp n s f = some s2 → s2.env = s.env →
      EnvRun fp s2 fs s3 → EnvRun fp s (f :: fs) s3

/-- The form `(define x 1)`. -/
def defX1 : Sexp := sList [.sym "define", .sym "x", .num d1]

/-- The state after startup, evaluating `(define x 1)` and reclaiming. -/
def c1Setup (fp : Fp) : Option State :=
  startup.bind fun s0 => stepForm fp 100 s0 defX1

/-- The form `(define x 2)`. -/
def defX2 : Sexp := sList [.sym "define", .sym "x", .num d2]

/-- The form `(car 5)`. -/
def carForm : Sexp := sList [.sym "car", .num d5]

/-- The form `(equ (car 5) (car 5))`. -/
def equForm : Sexp := sList [.sym "equ", carForm, carForm]

/-- The form `(if 0 'yes 'no)` (quotes already expanded by the reader). -/
def ifForm : Sexp :=
  sList [.sym "if", .num d0, sList [.sym "quote", .sym "yes"],
         sList [.sym "quote", .sym "no"]]

/-- The form `(define f (lambda x x))`: variadic identity. -/
def defVariadic : Sexp :=
  sList [.sym "define", .sym "f", sList [.sym "lambda", .sym "x", .sym "x"]]

/-- The form `(f 1 2 3)`. -/
def callF123 : Sexp := sList [.sym "f", .num d1, .num d2, .num d3]

/-- The form `(define f (lambda p g))`: a closure created at global scope
whose body reads the global `g` not yet defined. -/
def defLateGlobal : Sexp :=
  sList [.sym "define", .sym "f", sList [.sym "lambda", .sym "p", .sym "g"]]

/-- The form `(define g 'hi)`. -/
def defG : Sexp :=
  sList [.sym "define", .sym "g", sList [.sym "quote", .sym "hi"]]

/-- The form `(f)`. -/
def callF0 : Sexp := sList [.sym "f"]

/-! ## Bit-level lemmas about the NaN-boxing encoding -/

theorem tag_lt (x : L) : tag x < 2 ^ 16 := by
  unfold tag
  omega

theorem tag_box {t : Nat} (i : Nat) (ht : t < 2 ^ 16) : tag (box t i) = t := by
  unfold tag box
  omega

theorem ord_box (t : Nat) {i : Nat} (hi : i < 2 ^ 32) : ord (box t i) = i := by
  unfold ord box
  omega

/-- The mask `~(CONS ^ CLOS) = 0xfffffffe` of `car` / `cdr` clears exactly
the low bit of a 32-bit value. -/
theorem land_mask_eq (t : Nat) (ht : t < 2 ^ 32) :
    Nat.land t 0xfffffffe = 2 * (t / 2) := by
  have h1 : Nat.land t 0xfffffffe = t &&& 0xfffffffe := rfl
  rw [h1]
  have hdiv : (t &&& 0xfffffffe) / 2 = t / 2 := by
    rw [Nat.and_div_two]
    have h2 : (0xfffffffe : Nat) / 2 = 2 ^ 31 - 1 := by norm_num
    rw [h2, Nat.and_pow_two_sub_one_of_lt_two_pow]
    omega
  have hmod : (t &&& 0xfffffffe) % 2 = 0 := by
    rcases Nat.mod_two_eq_zero_or_one (t &&& 0xfffffffe) with h | h
    · exact h
    · exfalso
      rw [Nat.and_mod_two_eq_one] at h
      omega
  omega

/-- The tag check of `car` / `cdr` accepts a value iff its tag is `CONS`
or `CLOS`. -/
theorem pair_check (p : L) :
    Nat.land (tag p) 0xfffffffe = CONS ↔ tag p = CONS ∨ tag p = CLOS := by
  rw [land_mask_eq (tag p) (lt_trans (tag_lt p) (by norm_num))]
  unfold CONS CLOS
  omega

theorem car_pair (s : State) {p : L} (h : tag p = CONS ∨ tag p = CLOS) :
    car s p = s.cell (ord p + 1) := by
  unfold car
  rw [if_pos (pair_check p |>.mpr h)]

theorem cdr_pair (s : State) {p : L} (h : tag p = CONS ∨ tag p = CLOS) :
    cdr s p = s.cell (ord p) := by
  unfold cdr
  rw [if_pos (pair_check p |>.mpr h)]

theorem car_not_pair (s : State) {p : L} (h1 : tag p ≠ CONS) (h2 : tag p ≠ CLOS) :
    car s p = err := by
  unfold car
  rw [if_neg (fun hc => by rcases (pair_check p).mp hc with h | h <;> simp_all)]

theorem cdr_not_pair (s : State) {p : L} (h1 : tag p ≠ CONS) (h2 : tag p ≠ CLOS) :
    cdr s p = err := by
  unfold cdr
  rw [if_neg (fun hc => by rcases (pair_check p).mp hc with h | h <;> simp_all)]

/-! ## The allocation primitives -/

/-- Everything `cons` does when it succeeds. -/
theorem cons_spec {s : State} {x y : L} {p : State × L} (h2 : 2 ≤ s.sp)
    (h32 : s.sp < 2 ^ 32) (h : cons s x y = some p) :
    p.1.sp = s.sp - 2 ∧ p.1.heap = s.heap ∧ p.1.env = s.env ∧
    p.2 = box CONS (s.sp - 2) ∧ tag p.2 = CONS ∧ ord p.2 = s.sp - 2 ∧
    car p.1 p.2 = x ∧ cdr p.1 p.2 = y ∧
    p.1.cell (s.sp - 1) = x ∧ p.1.cell (s.sp - 2) = y ∧
    ∀ i, i ≠ s.sp - 1 → i ≠ s.sp - 2 → p.1.cell i = s.cell i := by
  unfold cons at h
  rw [if_neg (by omega)] at h
  by_cases hm : heapBytes s.heap > (s.sp - 2) * 8
  · rw [if_pos hm] at h
    exact absurd h (by simp)
  · rw [if_neg hm] at h
    injection h with h
    subst h
    have htag : tag (box CONS (s.sp - 2)) = CONS := tag_box _ (by norm_num [CONS])
    have hord : ord (box CONS (s.sp - 2)) = s.sp - 2 := ord_box _ (by omega)
    refine ⟨rfl, rfl, rfl, rfl, htag, hord, ?_, ?_, ?_, ?_, ?_⟩
    · rw [car_pair _ (Or.inl htag), hord]
      show (if s.sp - 2 + 1 = s.sp - 1 then x else _) = x
      rw [if_pos (by omega)]
    · rw [cdr_pair _ (Or.inl htag), hord]
      show (if s.sp - 2 = s.sp - 1 then x else if s.sp - 2 = s.sp - 2 then y else _) = y
      rw [if_neg (by omega), if_pos rfl]
    · show (if s.sp - 1 = s.sp - 1 then x else _) = x
      rw [if_pos rfl]
    · show (if s.sp - 2 = s.sp - 1 then x else if s.sp - 2 = s.sp - 2 then y else _) = y
      rw [if_neg (by omega), if_pos rfl]
    · intro i hi1 hi2
      show (if i = s.sp - 1 then x else if i = s.sp - 2 then y else s.cell i) = s.cell i
      rw [if_neg hi1, if_neg hi2]

/-! ## The frame property: every operation only allocates

All state evolution performed by the parser footprint and the evaluator
writes cells strictly below the stack pointer, only ever decreases the
stack pointer, and only ever appends to the atom heap. -/

theorem frame_refl (s : State) : Frame s s :=
  ⟨Nat.le_refl _, fun _ _ => rfl, ⟨[], by simp⟩⟩

theorem frame_trans {a b c : State} (h1 : Frame a b) (h2 : Frame b c) : Frame a c := by
  refine ⟨Nat.le_trans h2.sp_le h1.sp_le, fun i hi => ?_, ?_⟩
  · rw [h2.cells i (Nat.le_trans h1.sp_le hi), h1.cells i hi]
  · obtain ⟨u, hu⟩ := h1.heapx
    obtain ⟨v, hv⟩ := h2.heapx
    exact ⟨u ++ v, by rw [hv, hu, List.append_assoc]⟩

theorem frame_env_set {a b : State} (e : L) (h : Frame a b) :
    Frame a { b with env := e } :=
  ⟨h.sp_le, h.cells, h.heapx⟩

theorem frame_cons {s : State} {x y : L} {p : State × L} (h : cons s x y = some p) :
    Frame s p.1 ∧ p.1.env = s.env := by
  unfold cons at h
  split at h
  · exact absurd h (by simp)
  next hsp =>
    split at h
    · exact absurd h (by simp)
    next hm =>
      injection h with h
      subst h
      refine ⟨⟨Nat.sub_le _ _, fun i hi => ?_, ⟨[], by simp⟩⟩, rfl⟩
      show (if i = s.sp - 1 then x else if i = s.sp - 2 then y else s.cell i) = s.cell i
      rw [if_neg (by omega), if_neg (by omega)]

theorem frame_atom {s : State} {nm : String} {p : State × L} (h : atom s nm = some p) :
    Frame s p.1 ∧ p.1.env = s.env := by
  unfold atom at h
  split at h
  · injection h with h
    subst h
    exact ⟨frame_refl s, rfl⟩
  · split at h
    · exact absurd h (by simp)
    · injection h with h
      subst h
      exact ⟨⟨Nat.le_refl _, fun _ _ => rfl, ⟨[nm], rfl⟩⟩, rfl⟩

theorem frame_pair {s : State} {v x e : L} {p : State × L} (h : pair s v x e = some p) :
    Frame s p.1 ∧ p.1.env = s.env := by
  unfold pair at h
  obtain ⟨q, hq, hc⟩ := Option.bind_eq_some.mp h
  obtain ⟨f1, e1⟩ := frame_cons hq
  obtain ⟨f2, e2⟩ := frame_cons hc
  exact ⟨frame_trans f1 f2, by rw [e2, e1]⟩

theorem frame_closure {s : State} {v x e : L} {p : State × L}
    (h : closure s v x e = some p) : Frame s p.1 ∧ p.1.env = s.env := by
  unfold closure at h
  obtain ⟨q, hq, hm⟩ := Option.map_eq_some'.mp h
  obtain ⟨f1, e1⟩ := frame_pair hq
  rw [← hm]
  exact ⟨f1, e1⟩

theorem frame_bind {m : Option (State × L)} {f : State × L → Option (State × L)}
    {s : State} {p : State × L} (h : m.bind f = some p)
    (h1 : ∀ q, m = some q → Frame s q.1)
    (h2 : ∀ q, m = some q → f q = some p → Frame q.1 p.1) :
    Frame s p.1 := by
  obtain ⟨q, hq, hf⟩ := Option.bind_eq_some.mp h
  exact frame_trans (h1 q hq) (h2 q hq hf)

theorem frame_map_fst {m : Option (State × L)} {g : State × L → L}
    {s : State} {p : State × L}
    (h : m.map (fun q => (q.1, g q)) = some p)
    (h1 : ∀ q, m = some q → Frame s q.1) : Frame s p.1 := by
  obtain ⟨q, hq, hm⟩ := Option.map_eq_some'.mp h
  rw [← hm]
  exact h1 q hq

/-- The evaluator's frame property: a successful `interp` run only
allocates. -/
theorem interp_frame (fp : Fp) :
    ∀ (fuel : Nat) (c : Call) (s : State) (p : State × L),
      interp fp fuel c s = some p → Frame s p.1 := by
  intro fuel
  induction fuel with
  | zero =>
    intro c s p h
    exact absurd h (by simp [interp])
  | succ fuel ih =>
    intro c s p h
    cases c with
    | ev x e =>
      simp only [interp] at h
      split at h
      · obtain ⟨r, hr, hm⟩ := Option.map_eq_some'.mp h
        rw [← hm]
        exact frame_refl s
      · split at h
        · exact frame_bind h (fun q hq => ih _ _ _ hq) (fun q hq hf => ih _ _ _ hf)
        · injection h with h
          rw [← h]
          exact frame_refl s
    | ap f t e =>
      simp only [interp] at h
      split at h
      · exact ih _ _ _ h
      · split at h
        · exact ih _ _ _ h
        · injection h with h
          rw [← h]
          exact frame_refl s
    | red f t e =>
      simp only [interp] at h
      exact frame_bind h (fun q hq => ih _ _ _ hq) (fun q hq hf =>
        frame_bind hf (fun r hr => ih _ _ _ hr) (fun r hr hf2 => ih _ _ _ hf2))
    | bnd v t e =>
      simp only [interp] at h
      split at h
      · injection h with h
        rw [← h]
        exact frame_refl s
      · split at h
        · exact frame_bind h (fun q hq => (frame_pair hq).1) (fun q hq hf => ih _ _ _ hf)
        · exact (frame_pair h).1
    | evl t e =>
      simp only [interp] at h
      split at h
      · exact frame_bind h (fun q hq => ih _ _ _ hq) (fun q hq hf =>
          frame_bind hf (fun r hr => ih _ _ _ hr) (fun r hr hf2 => (frame_cons hf2).1))
      · split at h
        · obtain ⟨r, hr, hm⟩ := Option.map_eq_some'.mp h
          rw [← hm]
          exact frame_refl s
        · injection h with h
          rw [← h]
          exact frame_refl s
    | prm i t e =>
      simp only [interp] at h
      rcases i with _|_|_|_|_|_|_|_|_|_|_|_|_|_|_|_|_|_|_|_|i
      · exact frame_bind h (fun q hq => ih _ _ _ hq) (fun q hq hf => ih _ _ _ hf)
      · injection h with h
        rw [← h]
        exact frame_refl s
      · exact frame_bind h (fun q hq => ih _ _ _ hq) (fun q hq hf => (frame_cons hf).1)
      · exact frame_map_fst h (fun q hq => ih _ _ _ hq)
      · exact frame_map_fst h (fun q hq => ih _ _ _ hq)
      · refine frame_bind h (fun q hq => ih _ _ _ hq) (fun q hq hf => ?_)
        obtain ⟨n, hn, hm⟩ := Option.map_eq_some'.mp hf
        rw [← hm]
        exact frame_refl q.1
      · refine frame_bind h (fun q hq => ih _ _ _ hq) (fun q hq hf => ?_)
        obtain ⟨n, hn, hm⟩ := Option.map_eq_some'.mp hf
        rw [← hm]
        exact frame_refl q.1
      · refine frame_bind h (fun q hq => ih _ _ _ hq) (fun q hq hf => ?_)
        obtain ⟨n, hn, hm⟩ := Option.map_eq_some'.mp hf
        rw [← hm]
        exact frame_refl q.1
      · refine frame_bind h (fun q hq => ih _ _ _ hq) (fun q hq hf => ?_)
        obtain ⟨n, hn, hm⟩ := Option.map_eq_some'.mp hf
        rw [← hm]
        exact frame_refl q.1
      · exact frame_map_fst h (fun q hq => ih _ _ _ hq)
      · exact frame_map_fst h (fun q hq => ih _ _ _ hq)
      · exact frame_map_fst h (fun q hq => ih _ _ _ hq)
      · exact ih _ _ _ h
      · exact ih _ _ _ h
      · exact frame_map_fst h (fun q hq => ih _ _ _ hq)
      · exact ih _ _ _ h
      · exact frame_bind h (fun q hq => ih _ _ _ hq) (fun q hq hf => ih _ _ _ hf)
      · exact ih _ _ _ h
      · exact (frame_closure h).1
      · refine frame_bind h (fun q hq => ih _ _ _ hq) (fun q hq hf => ?_)
        obtain ⟨r, hr, hm⟩ := Option.map_eq_some'.mp hf
        rw [← hm]
        exact frame_env_set _ (frame_pair hr).1
      · exact absurd h (by simp)
    | orL t e =>
      simp only [interp] at h
      split at h
      · injection h with h
        rw [← h]
        exact frame_refl s
      · refine frame_bind h (fun q hq => ih _ _ _ hq) (fun q hq hf => ?_)
        split at hf
        · exact ih _ _ _ hf
        · injection hf with hf
          rw [← hf]
          exact frame_refl q.1
    | andL x t e =>
      simp only [interp] at h
      split at h
      · injection h with h
        rw [← h]
        exact frame_refl s
      · refine frame_bind h (fun q hq => ih _ _ _ hq) (fun q hq hf => ?_)
        split at hf
        · injection hf with hf
          rw [← hf]
          exact frame_refl q.1
        · exact ih _ _ _ hf
    | condL t e =>
      simp only [interp] at h
      split at h
      · exact ih _ _ _ h
      · refine frame_bind h (fun q hq => ih _ _ _ hq) (fun q hq hf => ?_)
        split at hf
        · exact ih _ _ _ hf
        · exact ih _ _ _ hf
    | letaL t e =>
      simp only [interp] at h
      split at h
      · exact frame_bind h (fun q hq => ih _ _ _ hq) (fun q hq hf =>
          frame_bind hf (fun r hr => (frame_pair hr).1) (fun r hr hf2 => ih _ _ _ hf2))
      · exact ih _ _ _ h

/-- The parser footprint's frame property. -/
theorem frame_inject :
    ∀ (f : Sexp) (s : State) (p : State × L), inject s f = some p →
      Frame s p.1 ∧ p.1.env = s.env := by
  intro f
  induction f with
  | num b =>
    intro s p h
    injection h with h
    rw [← h]
    exact ⟨frame_refl s, rfl⟩
  | sym nm =>
    intro s p h
    exact frame_atom h
  | snil =>
    intro s p h
    injection h with h
    rw [← h]
    exact ⟨frame_refl s, rfl⟩
  | scons a d iha ihd =>
    intro s p h
    simp only [inject] at h
    obtain ⟨q, hq, h2⟩ := Option.bind_eq_some.mp h
    obtain ⟨r, hr, h3⟩ := Option.bind_eq_some.mp h2
    obtain ⟨f1, e1⟩ := iha s q hq
    obtain ⟨f2, e2⟩ := ihd q.1 r hr
    obtain ⟨f3, e3⟩ := frame_cons h3
    exact ⟨frame_trans f1 (frame_trans f2 f3), by rw [e3, e2, e1]⟩

/-! ## Further supporting lemmas -/

/-- Interning is append-only, so an atom found on some heap is found at the
same offset on any extension of that heap. -/
theorem lookupAtom_append {h1 : List String} {nm : String} {i : Nat}
    (h : lookupAtom h1 nm = some i) (h2 : List String) :
    lookupAtom (h1 ++ h2) nm = some i := by
  induction h1 generalizing i with
  | nil => exact absurd h (by simp [lookupAtom])
  | cons a t ih =>
    rw [List.cons_append]
    simp only [lookupAtom] at h ⊢
    split at h
    next hc =>
      rw [if_pos hc]
      exact h
    next hc =>
      rw [if_neg hc]
      obtain ⟨j, hj, hij⟩ := Option.map_eq_some'.mp h
      rw [ih hj]
      simp [hij]

/-- `assoc` returns the error value on any chain that binds nothing equal
to `v` (as checked by `noBindChk`). -/
theorem assoc_noBind : ∀ (fuel : Nat) (s : State) (v e : L),
    noBindChk fuel s v e = true → assoc fuel s v e = some err := by
  intro fuel
  induction fuel with
  | zero =>
    intro s v e h
    exact absurd h (by simp [noBindChk])
  | succ fuel ih =>
    intro s v e h
    simp only [noBindChk] at h
    simp only [assoc]
    split at h
    next hc =>
      split at h
      next heq => exact absurd h (by simp)
      next hne =>
        rw [if_pos ⟨hc, hne⟩]
        exact ih _ _ _ h
    next hc =>
      rw [if_neg (fun hand => hc hand.1), if_neg hc]

/-- The arithmetic-fold loop cycles forever once its cursor is the error
value: `cdr(err) = err` is non-nil, so the condition never fails. -/
theorem arithLoop_err (op : Nat → Nat → Nat) (s : State) :
    ∀ fuel n, arithLoop op fuel s n err = none := by
  intro fuel
  induction fuel with
  | zero =>
    intro n
    simp [arithLoop]
  | succ fuel ih =>
    intro n
    have hcdr : cdr s err = err := cdr_not_pair s (by decide) (by decide)
    have hnot : not err = false := by decide
    simp only [arithLoop, hcdr, hnot, Bool.false_eq_true, if_false]
    exact ih _

/-- Called on `t = nil`, the arithmetic-fold loop never terminates: the
first `cdr` yields `err`, which is truthy, and the loop then cycles on
`err`. -/
theorem arithLoop_nil (op : Nat → Nat → Nat) (s : State) {t : L}
    (h : tag t = NIL) : ∀ fuel n, arithLoop op fuel s n t = none := by
  intro fuel n
  cases fuel with
  | zero => simp [arithLoop]
  | succ fuel =>
    have hcdr : cdr s t = err := by
      refine cdr_not_pair s ?_ ?_ <;> rw [h] <;> decide
    have hnot : not err = false := by decide
    simp only [arithLoop, hcdr, hnot, Bool.false_eq_true, if_false]
    exact arithLoop_err op s fuel _

/-- The arithmetic-fold loop terminates whenever the chain hanging off the
cursor's `cdr` is a proper list. -/
theorem arithLoop_term (op : Nat → Nat → Nat) (s : State) {u : L}
    (hu : ProperList s u) :
    ∀ (t : L) (n : Nat), cdr s t = u →
      ∃ fuel r, arithLoop op fuel s n t = some r := by
  induction hu with
  | pnil u hnil =>
    intro t n hcdr
    have hnot : not u = true := by
      unfold not
      rw [hnil]
      decide
    exact ⟨1, n, by simp only [arithLoop, hcdr, hnot, if_true]⟩
  | pcons u hcons _ ih =>
    intro t n hcdr
    obtain ⟨fuel, r, hr⟩ := ih u (op n (car s u)) rfl
    have hnot : not u = false := by
      unfold not
      rw [hcons]
      decide
    refine ⟨fuel + 1, r, ?_⟩
    simp only [arithLoop, hcdr, hnot, Bool.false_eq_true, if_false]
    exact hr

/-- A proper list with a `CONS` tag has a proper tail. -/
theorem properList_cdr {s : State} {t : L} (h : ProperList s t)
    (hc : tag t = CONS) : ProperList s (cdr s t) := by
  cases h with
  | pnil _ hnil =>
    rw [hnil] at hc
    exact absurd hc (by decide)
  | pcons _ _ htail => exact htail

/-- Across a run of successful, environment-preserving top-level forms
(each followed by reclamation), the environment value, the cells at or
above the recorded environment offset, and the interned heap prefix are
all preserved. -/
theorem envRun_inv {fp : Fp} {s : State} {fs : List Sexp} {s3 : State}
    (h : EnvRun fp s fs s3) :
    s3.env = s.env ∧
    (∀ i, ord s.env ≤ i → s.sp ≤ i → s3.cell i = s.cell i) ∧
    (∃ hx, s3.heap = s.heap ++ hx) ∧
    (s3.sp = s.sp ∨ s3.sp = ord s.env) := by
  induction h with
  | done s => exact ⟨rfl, fun _ _ _ => rfl, ⟨[], by simp⟩, Or.inl rfl⟩
  | step s s2 s3 f fs n h1 he _ ih =>
    unfold stepForm at h1
    obtain ⟨q, hq, hgc⟩ := Option.map_eq_some'.mp h1
    unfold topStep at hq
    obtain ⟨p1, hp1, hint⟩ := Option.bind_eq_some.mp hq
    obtain ⟨finj, einj⟩ := frame_inject f s p1 hp1
    have fint : Frame p1.1 q.1 := interp_frame fp _ _ _ _ hint
    have fall : Frame s q.1 := frame_trans finj fint
    have hs2cell : s2.cell = q.1.cell := by rw [← hgc]; rfl
    have hs2env : s2.env = q.1.env := by rw [← hgc]; rfl
    have hs2sp : s2.sp = ord q.1.env := by rw [← hgc]; rfl
    have hs2heap : s2.heap = q.1.heap := by rw [← hgc]; rfl
    have henv2 : q.1.env = s.env := by rw [← hs2env]; exact he
    obtain ⟨ihenv, ihcells, ihheap, ihsp⟩ := ih
    refine ⟨by rw [ihenv, he], fun i h1i h2i => ?_, ?_, ?_⟩
    · rw [ihcells i ?_ ?_]
      · rw [hs2cell]
        exact fall.cells i h2i
      · rw [hs2env, henv2]
        exact h1i
      · rw [hs2sp, henv2]
        exact h1i
    · obtain ⟨u, hu⟩ := fall.heapx
      obtain ⟨w, hw⟩ := ihheap
      exact ⟨u ++ w, by rw [hw, hs2heap, hu, List.append_assoc]⟩
    · right
      rcases ihsp with hsp | hsp
      · rw [hsp, hs2sp, henv2]
      · rw [hsp, hs2env, henv2]

/-- `encode` / `ordinal_of` round-trip: for any of the five tags and any
32-bit ordinal, `ord (box t i) = i` and the tag bits of `box t i` are `t`. -/
theorem box_roundtrip (t i : Nat) (ht : t < 2 ^ 16) (hi : i < 2 ^ 32) :
    ord (box t i) = i ∧ tag (box t i) = t :=
  ⟨ord_box t hi, tag_box i ht⟩

/-! ## The claims -/

/-- C3: `eval(x, e)` dispatches on the tag of `x`: an `ATOM` is looked up
with `assoc` (the state unchanged); a `CONS` first evaluates only its car
in `e` and then applies the result to the still-unevaluated cdr of `x`
(read in the entry state) together with `e`; any other tag (numbers,
`NIL`, `PRIM`, `CLOS`) evaluates to itself. -/
theorem C3_eval_dispatch (fp : Fp) (fuel : Nat) (s : State) (x e : L) :
    (tag x = ATOM → eval fp (fuel + 1) s x e = (assoc fuel s x e).map fun r => (s, r)) ∧
    (tag x = CONS → eval fp (fuel + 1) s x e =
      (eval fp fuel s (car s x) e).bind fun p => apply fp fuel p.1 p.2 (cdr s x) e) ∧
    (tag x ≠ ATOM → tag x ≠ CONS → eval fp (fuel + 1) s x e = some (s, x)) := by
  refine ⟨fun h => ?_, fun h => ?_, fun h1 h2 => ?_⟩
  · simp [eval, interp, h]
  · have hna : tag x ≠ ATOM := by rw [h]; decide
    simp [eval, apply, interp, h, hna, ATOM, CONS]
  · simp [eval, interp, h1, h2]

/-- C3, witness: a number (tag outside the five) evaluates to itself. -/
theorem C3_witness : eval fp0 1 startup0 d1 nil = some (startup0, d1) :=
  (C3_eval_dispatch fp0 0 startup0 d1 nil).2.2 (by decide) (by decide)

/-- C5: `car` / `cdr` of any value tagged neither `CONS` nor `CLOS` return
the error value (no abort); consequently `(car 5)` evaluates to the error
value and `(equ (car 5) (car 5))` evaluates to the truth atom, the error
value being one stable interned atom compared by bit equality. -/
theorem C5_not_a_pair (s : State) (p : L) (h1 : tag p ≠ CONS) (h2 : tag p ≠ CLOS) :
    (car s p = err ∧ cdr s p = err) ∧
    (startup.bind fun s0 => (topStep fp0 50 s0 carForm).map Prod.snd) = some err ∧
    (startup.bind fun s0 => (topStep fp0 50 s0 equForm).map Prod.snd) = some tru := by
  exact ⟨⟨car_not_pair s h1 h2, cdr_not_pair s h1 h2⟩, by decide, by decide⟩

/-- C5, witness: instantiated at the number 5. -/
theorem C5_witness :
    (car startup0 d5 = err ∧ cdr startup0 d5 = err) ∧
    (startup.bind fun s0 => (topStep fp0 50 s0 carForm).map Prod.snd) = some err ∧
    (startup.bind fun s0 => (topStep fp0 50 s0 equForm).map Prod.snd) = some tru :=
  C5_not_a_pair startup0 d5 (by decide) (by decide)

/-- C6: pair round-trip.  When `cons(x, y)` does not abort, reading the
`car` and `cdr` of the returned value gives back `x` and `y` bit-exactly,
the stack pointer has decreased by exactly two, and the result is a `CONS`
addressing the new stack top. -/
theorem C6_pair_roundtrip {s : State} {x y : L} {p : State × L}
    (h2 : 2 ≤ s.sp) (h32 : s.sp < 2 ^ 32) (h : cons s x y = some p) :
    car p.1 p.2 = x ∧ cdr p.1 p.2 = y ∧ p.1.sp + 2 = s.sp ∧
    tag p.2 = CONS ∧ ord p.2 = p.1.sp := by
  obtain ⟨hsp, _, _, _, htag, hord, hcar, hcdr, _, _, _⟩ := cons_spec h2 h32 h
  exact ⟨hcar, hcdr, by omega, htag, by rw [hord, hsp]⟩

/-- C6, witness: a concrete allocation at the top of a fresh arena. -/
theorem C6_witness :
    ((cons ⟨fun _ => 0, 1024, ["ERR"], 0⟩ d1 d2).map fun p =>
      (car p.1 p.2, cdr p.1 p.2, p.1.sp + 2, tag p.2, decide (ord p.2 = p.1.sp))) =
      some (d1, d2, 1024, CONS, true) := by
  cases hc : cons (⟨fun _ => 0, 1024, ["ERR"], 0⟩ : State) d1 d2 with
  | none =>
    have hs : (cons (⟨fun _ => 0, 1024, ["ERR"], 0⟩ : State) d1 d2).isSome = true := by decide
    rw [hc] at hs
    exact absurd hs (by decide)
  | some p =>
    obtain ⟨h1, h2, h3, h4, h5⟩ := C6_pair_roundtrip (by decide) (by decide) hc
    simp [h1, h2, h3, h4, h5]

/-- C7: `bind` returns the environment unchanged on a `NIL` parameter
spec, extends it positionally in lock-step on a `CONS` spec, and binds a
single-`ATOM` spec to the entire remaining argument value; hence after
`(define f (lambda x x))`, `(f 1 2 3)` evaluates to the proper list
`(1 2 3)`. -/
theorem C7_variadic_bind (fp : Fp) (fuel : Nat) (s : State) (v t e : L) :
    (tag v = NIL → bind fp (fuel + 1) s v t e = some (s, e)) ∧
    (tag v = CONS → bind fp (fuel + 1) s v t e =
      (pair s (car s v) (car s t) e).bind fun p =>
        bind fp fuel p.1 (cdr s v) (cdr s t) p.2) ∧
    (tag v = ATOM → bind fp (fuel + 1) s v t e = pair s v t e) ∧
    (startup.bind fun s0 => (stepForm fp0 100 s0 defVariadic).bind fun s1 =>
      (topStep fp0 100 s1 callF123).map fun p =>
        (toListN p.1 3 p.2, cdr p.1 (cdr p.1 (cdr p.1 p.2)))) =
      some ([d1, d2, d3], nil) := by
  refine ⟨fun h => ?_, fun h => ?_, fun h => ?_, by decide⟩
  · simp [bind, interp, h]
  · have hn : tag v ≠ NIL := by rw [h]; decide
    simp [bind, interp, h, hn, NIL, CONS]
  · have hn : tag v ≠ NIL := by rw [h]; decide
    have hc : tag v ≠ CONS := by rw [h]; decide
    simp [bind, interp, hn, hc]

/-- C7, witness: the `NIL` parameter-spec case at concrete inputs. -/
theorem C7_witness : bind fp0 1 startup0 nil d1 d2 = some (startup0, d2) :=
  (C7_variadic_bind fp0 0 startup0 nil d1 d2).1 (by decide)

/-- C8: `NIL` is the unique false value: `not` holds exactly on `NIL`-
tagged values, the number zero is truthy, the `if` primitive selects the
then/else branch by that test alone, and `(if 0 'yes 'no)` evaluates to
the atom `yes`. -/
theorem C8_truthiness :
    (∀ x : L, not x = true ↔ tag x = NIL) ∧
    not d0 = false ∧
    (∀ (fp : Fp) (fuel : Nat) (s : State) (t e : L) (s1 : State) (c : L),
      eval fp fuel s (car s t) e = some (s1, c) →
      (tag c ≠ NIL → interp fp (fuel + 1) (.prm 16 t e) s =
        eval fp fuel s1 (car s1 (cdr s1 t)) e) ∧
      (tag c = NIL → interp fp (fuel + 1) (.prm 16 t e) s =
        eval fp fuel s1 (car s1 (cdr s1 (cdr s1 t))) e)) ∧
    (startup.bind fun s0 => (topStep fp0 100 s0 ifForm).map fun p =>
      (p.2, lookupAtom p.1.heap "yes")) = some (box ATOM 86, some 86) := by
  refine ⟨fun x => by simp [not], by decide,
    fun fp fuel s t e s1 c hc => ⟨fun h => ?_, fun h => ?_⟩, by decide⟩
  · have hn : not c = false := by unfold not; simp [h]
    simp only [interp]
    rw [show interp fp fuel (Call.ev (car s t) e) s = some (s1, c) from hc]
    simp [hn, eval]
  · have hn : not c = true := by unfold not; simp [h]
    simp only [interp]
    rw [show interp fp fuel (Call.ev (car s t) e) s = some (s1, c) from hc]
    simp [hn, eval]

/-- C8, witness: the `if` dispatch equation at a concrete truthy condition
(`car` of `nil` is the error atom, which is non-nil hence truthy). -/
theorem C8_witness :
    interp fp0 3 (.prm 16 nil nil) startup0 =
      eval fp0 2 startup0 (car startup0 (cdr startup0 nil)) nil :=
  ((C8_truthiness).2.2.1 fp0 2 startup0 nil nil startup0 err rfl).1 (by decide)

/-- C9: the error value is the interned atom "ERR", the first atom
interned (heap offset 0); it is not bound in the startup global
environment; `car` / `cdr` of it return it unchanged; and evaluating it in
any environment that does not bind it (in particular the startup global
environment) returns it unchanged — once produced it is absorbing. -/
theorem C9_err_absorbing :
    ((atom startup0 "ERR").map Prod.snd = some err ∧ err = box ATOM 0) ∧
    (∀ s : State, car s err = err ∧ cdr s err = err) ∧
    (∀ (fp : Fp) (fuel : Nat) (s : State) (e : L), noBindChk fuel s err e = true →
      eval fp (fuel + 1) s err e = some (s, err)) ∧
    (startup.map (fun s0 => noBindChk 40 s0 err s0.env) = some true) ∧
    (∀ fp : Fp, (startup.bind fun s0 => eval fp 40 s0 err s0.env) =
      startup.map fun s0 => (s0, err)) := by
  refine ⟨⟨by decide, rfl⟩,
    fun s => ⟨car_not_pair s (by decide) (by decide),
              cdr_not_pair s (by decide) (by decide)⟩,
    fun fp fuel s e h => ?_, by decide, fun fp => rfl⟩
  have ha : assoc fuel s err e = some err := assoc_noBind fuel s err e h
  have ht : tag err = ATOM := by decide
  simp [eval, interp, ht, ha]

/-- C9, witness: the unbound-lookup equation at a concrete environment. -/
theorem C9_witness : eval fp0 2 startup0 err nil = some (startup0, err) :=
  C9_err_absorbing.2.2.1 fp0 1 startup0 nil (by decide)

/-- C10: the shared fold loop of the `+`, `-`, `*`, `/` primitives
terminates for every proper non-empty evaluated argument list, and on the
empty list `nil` it never terminates, because `cdr(nil)` is the truthy
error value and `cdr(err) = err` keeps the loop cycling; the `+` primitive
is exactly `evlis` followed by this loop. -/
theorem C10_arith_fold (op : Nat → Nat → Nat) (s : State) (t : L) :
    (ProperList s t → tag t = CONS →
      ∀ n, ∃ fuel r, arithLoop op fuel s n t = some r) ∧
    (tag t = NIL → ∀ fuel n, arithLoop op fuel s n t = none) ∧
    (∀ (fp : Fp) (fuel : Nat) (t1 e : L),
      (interp fp (fuel + 1) (.prm 5 t1 e) s =
        (interp fp fuel (.evl t1 e) s).bind fun q =>
          (arithLoop fp.add fuel q.1 (car q.1 q.2) q.2).map fun n => (q.1, n)) ∧
      (interp fp (fuel + 1) (.prm 6 t1 e) s =
        (interp fp fuel (.evl t1 e) s).bind fun q =>
          (arithLoop fp.sub fuel q.1 (car q.1 q.2) q.2).map fun n => (q.1, n)) ∧
      (interp fp (fuel + 1) (.prm 7 t1 e) s =
        (interp fp fuel (.evl t1 e) s).bind fun q =>
          (arithLoop fp.mul fuel q.1 (car q.1 q.2) q.2).map fun n => (q.1, n)) ∧
      (interp fp (fuel + 1) (.prm 8 t1 e) s =
        (interp fp fuel (.evl t1 e) s).bind fun q =>
          (arithLoop fp.div fuel q.1 (car q.1 q.2) q.2).map fun n => (q.1, n))) := by
  refine ⟨fun hp hc n => ?_, fun h => arithLoop_nil op s h,
    fun fp fuel t1 e => ⟨rfl, rfl, rfl, rfl⟩⟩
  exact arithLoop_term op s (properList_cdr hp hc) t n rfl

/-- C10, witness: termination on the concrete one-element list `(1)` laid
out at the top of the arena. -/
theorem C10_witness :
    ∃ fuel r, arithLoop fp0.add fuel
      ⟨fun i => if i = 1023 then d1 else if i = 1022 then nil else 0, 1022, ["ERR"], 0⟩
      d1 (box CONS 1022) = some r := by
  refine (C10_arith_fold fp0.add
    ⟨fun i => if i = 1023 then d1 else if i = 1022 then nil else 0, 1022, ["ERR"], 0⟩
    (box CONS 1022)).1 ?_ (by decide) d1
  refine ProperList.pcons _ (by decide) ?_
  exact ProperList.pnil _ (by decide)

/-- C2: constructing a closure stores `nil` as the captured environment
exactly when `e` is bit-identical to the current global environment and
stores `e` itself otherwise (alongside the `(params . body)` pair), and
tags the result `CLOS`; dually, `reduce` evaluates the closure body under
the global environment current at call time (read after argument
evaluation) whenever the stored capture is nil; hence a closure created at
global scope observes globals defined after its creation:
`(define f (lambda p g))`, then `(define g 'hi)`, then `(f)` yields the
atom `hi`. -/
theorem C2_closure_capture :
    (∀ (s : State) (v x e : L) (p : State × L), 4 ≤ s.sp → s.sp < 2 ^ 32 →
      closure s v x e = some p →
      tag p.2 = CLOS ∧ cdr p.1 p.2 = (if e = s.env then nil else e) ∧
      car p.1 (car p.1 p.2) = v ∧ cdr p.1 (car p.1 p.2) = x) ∧
    (∀ (fp : Fp) (fuel : Nat) (s : State) (f t e : L), not (cdr s f) = true →
      reduce fp (fuel + 1) s f t e =
        (evlis fp fuel s t e).bind fun q =>
          (bind fp fuel q.1 (car s (car s f)) q.2 q.1.env).bind fun r =>
            eval fp fuel r.1 (cdr s (car s f)) r.2) ∧
    (startup.bind fun s0 => (stepForm fp0 100 s0 defLateGlobal).bind fun s1 =>
      (stepForm fp0 100 s1 defG).bind fun s2 =>
        (topStep fp0 100 s2 callF0).map fun p =>
          (p.2, lookupAtom p.1.heap "hi")) = some (box ATOM 92, some 92) := by
  refine ⟨fun s v x e p h4 h32 h => ?_, fun fp fuel s f t e h => ?_, by decide⟩
  · unfold closure at h
    obtain ⟨q, hq, hmp⟩ := Option.map_eq_some'.mp h
    unfold pair at hq
    obtain ⟨q1, hq1, hq2⟩ := Option.bind_eq_some.mp hq
    obtain ⟨hsp1, hh1, he1, hv1, htag1, hord1, hcar1, hcdr1, hcell1a, hcell1b, hpres1⟩ :=
      cons_spec (by omega) h32 hq1
    obtain ⟨hsp2, hh2, he2, hv2, htag2, hord2, hcar2, hcdr2, hcell2a, hcell2b, hpres2⟩ :=
      cons_spec (by rw [hsp1]; omega) (by rw [hsp1]; omega) hq2
    subst hmp
    dsimp only
    have htagc : tag (box CLOS (ord q.2)) = CLOS := tag_box _ (by norm_num [CLOS])
    have hordc : ord (box CLOS (ord q.2)) = ord q.2 := ord_box _ (by rw [hord2]; omega)
    refine ⟨htagc, ?_, ?_, ?_⟩
    · rw [cdr_pair _ (Or.inr htagc), hordc, hord2, hcell2b]
    · rw [car_pair _ (Or.inr htagc), hordc, hord2,
        show q1.1.sp - 2 + 1 = q1.1.sp - 1 by omega, hcell2a,
        car_pair _ (Or.inl htag1), hord1,
        hpres2 (s.sp - 2 + 1) (by omega) (by omega),
        show s.sp - 2 + 1 = s.sp - 1 by omega, hcell1a]
    · rw [car_pair _ (Or.inr htagc), hordc, hord2,
        show q1.1.sp - 2 + 1 = q1.1.sp - 1 by omega, hcell2a,
        cdr_pair _ (Or.inl htag1), hord1,
        hpres2 (s.sp - 2) (by omega) (by omega), hcell1b]
  · simp [reduce, interp, eval, evlis, bind, h]

/-- C2, witness: a closure built in an environment differing from the
global one stores that environment itself. -/
theorem C2_witness :
    ((closure ⟨fun _ => 0, 1024, ["ERR"], 0⟩ d1 d2 d3).map fun p =>
      (tag p.2, cdr p.1 p.2, car p.1 (car p.1 p.2), cdr p.1 (car p.1 p.2))) =
      some (CLOS, d3, d1, d2) := by
  cases hc : closure (⟨fun _ => 0, 1024, ["ERR"], 0⟩ : State) d1 d2 d3 with
  | none =>
    have hs : (closure (⟨fun _ => 0, 1024, ["ERR"], 0⟩ : State) d1 d2 d3).isSome = true := by
      decide
    rw [hc] at hs
    exact absurd hs (by decide)
  | some p =>
    obtain ⟨h1, h2, h3, h4⟩ :=
      (C2_closure_capture).1 ⟨fun _ => 0, 1024, ["ERR"], 0⟩ d1 d2 d3 p
        (by decide) (by decide) hc
    rw [if_neg (by decide)] at h2
    simp [h1, h2, h3, h4]

/-- C1 (amended): after `(define x 1)` and its reclamation step, any run
of successful top-level forms that leave the global environment value
unchanged (in particular, forms executing no `define`), each followed by
reclamation, preserves the binding: a fresh top-level form `x` still
evaluates to the number 1. -/
theorem C1_reclamation (fp : Fp) (s1 s3 : State) (fs : List Sexp) (m : Nat)
    (hs1 : c1Setup fp = some s1) (hrun : EnvRun fp s1 fs s3) (hm : 2 ≤ m) :
    (topStep fp m s3 (.sym "x")).map Prod.snd = some d1 := by
  have hfacts : (c1Setup fp).map (fun s =>
      (s.sp, s.env, s.cell 931, s.cell 932, s.cell 933, lookupAtom s.heap "x")) =
      some (930, box CONS 930, box CONS 932, d1, box ATOM 86, some 86) := rfl
  rw [hs1] at hfacts
  simp only [Option.map_some', Option.some.injEq, Prod.mk.injEq] at hfacts
  obtain ⟨hsp, henv, hc931, hc932, hc933, hlook⟩ := hfacts
  obtain ⟨ienv, icells, ⟨hx, iheap⟩, isp⟩ := envRun_inv hrun
  have hcells3 : ∀ i, 930 ≤ i → s3.cell i = s1.cell i := by
    intro i hi
    refine icells i ?_ ?_
    · rw [henv, show ord (box CONS 930) = 930 by decide]
      exact hi
    · rw [hsp]
      exact hi
  have h931 : s3.cell 931 = box CONS 932 := by rw [hcells3 931 (by omega), hc931]
  have h932 : s3.cell 932 = d1 := by rw [hcells3 932 (by omega), hc932]
  have h933 : s3.cell 933 = box ATOM 86 := by rw [hcells3 933 (by omega), hc933]
  have henv3 : s3.env = box CONS 930 := by rw [ienv, henv]
  have hlook3 : lookupAtom s3.heap "x" = some 86 := by
    rw [iheap]
    exact lookupAtom_append hlook hx
  have hinj : inject s3 (.sym "x") = some (s3, box ATOM 86) := by
    simp [inject, atom, hlook3]
  obtain ⟨k, rfl⟩ : ∃ k, m = k + 2 := ⟨m - 2, by omega⟩
  unfold topStep
  rw [hinj, Option.some_bind]
  rw [henv3]
  have htx : tag (box ATOM 86) = ATOM := by decide
  simp only [interp, htx, if_pos]
  have hcar1 : car s3 (box CONS 930) = box CONS 932 := by
    rw [car_pair _ (Or.inl (by decide)), show ord (box CONS 930) + 1 = 931 by decide, h931]
  have hcar2 : car s3 (box CONS 932) = box ATOM 86 := by
    rw [car_pair _ (Or.inl (by decide)), show ord (box CONS 932) + 1 = 933 by decide, h933]
  have hcdr2 : cdr s3 (box CONS 932) = d1 := by
    rw [cdr_pair _ (Or.inl (by decide)), show ord (box CONS 932) = 932 by decide, h932]
  simp only [assoc]
  rw [if_neg (fun hand => hand.2 (by rw [hcar1, hcar2])), if_pos (by decide)]
  rw [hcar1, hcdr2]
  simp

/-- C1, witness: the empty run of intervening forms. -/
theorem C1_witness :
    ((c1Setup fp0).bind fun s1 => (topStep fp0 5 s1 (.sym "x")).map Prod.snd) = some d1 := by
  cases hc : c1Setup fp0 with
  | none =>
    have hs : (c1Setup fp0).isSome = true := by decide
    rw [hc] at hs
    exact absurd hs (by decide)
  | some s1 =>
    simpa using C1_reclamation fp0 s1 s1 [] 5 hc (EnvRun.done s1) (by omega)

/-- C1, counterexample to the claim as stated: with `(define x 2)` among
the intervening top-level forms, the later read of `x` yields 2, not 1. -/
theorem C1_counterexample :
    ((c1Setup fp0).bind fun s1 => (stepForm fp0 100 s1 defX2).bind fun s2 =>
      (topStep fp0 100 s2 (.sym "x")).map Prod.snd) = some d2 ∧ d2 ≠ d1 :=
  ⟨by decide, by decide⟩

end TL
